import Mathlib

/-!
Verification of the arbitrary-precision number-theory module of an RSA
visualizer (`rsa-math.js`).  The JavaScript source works on `BigInt`
values; it is embedded here over `Int`, with JavaScript's `%` on BigInt
translated as `Int.tmod` (remainder with the sign of the dividend),
`/` on BigInt as `Int.tdiv` (division truncating towards zero) and
`>> 1n` as `Int.fdiv · 2` (arithmetic shift).  Text is embedded as Lean
`String` (a sequence of Unicode scalar values); the platform
`TextEncoder` / `TextDecoder` used by the codec are modelled by the
UTF-8 encoding and the WHATWG UTF-8 decoding state machine below.
-/

namespace RsaMath

/-- Absolute value of a truncating remainder: `|a tmod b| = |a| % |b|`. -/
theorem natAbs_tmod (a b : Int) : (a.tmod b).natAbs = a.natAbs % b.natAbs := by
  cases a <;> cases b <;>
    simp only [Int.tmod, Int.natAbs_neg, Int.natAbs_ofNat, Int.natAbs_negSucc,
      Nat.succ_eq_add_one] <;> rfl

/-- Embedding of `gcd(a, b)` from `rsa-math.js`: Euclid's algorithm with
JavaScript's truncating remainder; `!b` is the test `b = 0`. -/
def gcd (a b : Int) : Int :=
  if b = 0 then a
  else gcd b (a.tmod b)
termination_by b.natAbs
decreasing_by
  rename_i h
  rw [natAbs_tmod]
  exact Nat.mod_lt _ (Int.natAbs_pos.mpr h)

/-- Embedding of `extendedEuclidean(a, b)` from `rsa-math.js`: returns
`(g, x, y)` with `x = y₁` and `y = x₁ - (a / b) * y₁` in the recursive
case, where `/` truncates towards zero. -/
def extendedEuclidean (a b : Int) : Int × Int × Int :=
  if b = 0 then (a, 1, 0)
  else
    let r := extendedEuclidean b (a.tmod b)
    (r.1, r.2.2, r.2.1 - a.tdiv b * r.2.2)
termination_by b.natAbs
decreasing_by
  rename_i h
  rw [natAbs_tmod]
  exact Nat.mod_lt _ (Int.natAbs_pos.mpr h)

/-- Embedding of `modInverse(e, phi)` from `rsa-math.js`; the source's
`null` sentinel is embedded as `none`. -/
def modInverse (e phi : Int) : Option Int :=
  let r := extendedEuclidean e phi
  if r.1 ≠ 1 then none
  else some ((r.2.1.tmod phi + phi).tmod phi)

/-- First component of `extendedEuclidean` agrees with `gcd` (bounded
recursion unrolling, by induction on a bound for `|b|`). -/
theorem extendedEuclidean_fst_bounded :
    ∀ (n : Nat) (a b : Int), b.natAbs ≤ n → (extendedEuclidean a b).1 = gcd a b := by
  intro n
  induction n with
  | zero =>
    intro a b h
    have hb : b = 0 := by
      have := Int.natAbs_eq_zero.mp (Nat.le_zero.mp h)
      exact this
    rw [extendedEuclidean, gcd]
    simp [hb]
  | succ n ih =>
    intro a b h
    rw [extendedEuclidean, gcd]
    by_cases hb : b = 0
    · simp [hb]
    · simp only [if_neg hb]
      have hlt : (a.tmod b).natAbs ≤ n := by
        have h1 : (a.tmod b).natAbs = a.natAbs % b.natAbs := natAbs_tmod a b
        have h2 : a.natAbs % b.natAbs < b.natAbs :=
          Nat.mod_lt _ (Int.natAbs_pos.mpr hb)
        omega
      exact ih b (a.tmod b) hlt

/-- First component of `extendedEuclidean` agrees with `gcd`. -/
theorem extendedEuclidean_fst (a b : Int) : (extendedEuclidean a b).1 = gcd a b :=
  extendedEuclidean_fst_bounded b.natAbs a b le_rfl

/-- Bézout identity for `extendedEuclidean` (bounded recursion form). -/
theorem extendedEuclidean_bezout_bounded :
    ∀ (n : Nat) (a b : Int), b.natAbs ≤ n →
      a * (extendedEuclidean a b).2.1 + b * (extendedEuclidean a b).2.2 =
        (extendedEuclidean a b).1 := by
  intro n
  induction n with
  | zero =>
    intro a b h
    have hb : b = 0 := Int.natAbs_eq_zero.mp (Nat.le_zero.mp h)
    rw [extendedEuclidean]
    simp [hb]
  | succ n ih =>
    intro a b h
    rw [extendedEuclidean]
    by_cases hb : b = 0
    · simp [hb]
    · simp only [if_neg hb]
      have hlt : (a.tmod b).natAbs ≤ n := by
        have h1 : (a.tmod b).natAbs = a.natAbs % b.natAbs := natAbs_tmod a b
        have h2 : a.natAbs % b.natAbs < b.natAbs :=
          Nat.mod_lt _ (Int.natAbs_pos.mpr hb)
        omega
      have key := Int.tmod_add_tdiv a b
      have ihr := ih b (a.tmod b) hlt
      show a * (extendedEuclidean b (a.tmod b)).2.2 +
          b * ((extendedEuclidean b (a.tmod b)).2.1 -
            a.tdiv b * (extendedEuclidean b (a.tmod b)).2.2) =
        (extendedEuclidean b (a.tmod b)).1
      linear_combination ihr - (extendedEuclidean b (a.tmod b)).2.2 * key

/-- Bézout identity for `extendedEuclidean`. -/
theorem extendedEuclidean_bezout (a b : Int) :
    a * (extendedEuclidean a b).2.1 + b * (extendedEuclidean a b).2.2 =
      (extendedEuclidean a b).1 :=
  extendedEuclidean_bezout_bounded b.natAbs a b le_rfl

/-- C4: for all integers a and b, `extendedEuclidean(a, b)` returns a triple
(g, x, y) with `a·x + b·y = g` and `g` equal to the value computed by the
`gcd` function; in the base case `extendedEuclidean(a, 0) = (a, 1, 0)`. -/
theorem extendedEuclidean_correct (a b : Int) :
    (extendedEuclidean a b).1 = gcd a b ∧
      a * (extendedEuclidean a b).2.1 + b * (extendedEuclidean a b).2.2 =
        (extendedEuclidean a b).1 ∧
      extendedEuclidean a 0 = (a, 1, 0) := by
  refine ⟨extendedEuclidean_fst a b, extendedEuclidean_bezout a b, ?_⟩
  rw [extendedEuclidean]
  simp

/-- Loop of `modPow` from `rsa-math.js`: while `exponent > 0`, multiply the
accumulator by the base when the low bit is set, square the base and shift
the exponent right by one bit (`>> 1n` is flooring division by two). -/
def modPowGo (modulus result base exponent : Int) : Int :=
  if exponent > 0 then
    modPowGo modulus
      (if exponent.tmod 2 = 1 then (result * base).tmod modulus else result)
      ((base * base).tmod modulus) (exponent.fdiv 2)
  else result
termination_by exponent.toNat
decreasing_by
  rename_i h
  rw [Int.fdiv_eq_ediv _ (by omega)]
  omega

/-- Embedding of `modPow(base, exponent, modulus)` from `rsa-math.js`. -/
def modPow (base exponent modulus : Int) : Int :=
  if modulus = 1 then 0
  else modPowGo modulus 1 (base.tmod modulus) exponent

/-- Correctness invariant of the square-and-multiply loop, for a
non-negative accumulator in `[0, modulus)` and non-negative base. -/
theorem modPowGo_eq_bounded :
    ∀ (n : Nat) (e r b m : Int), e.toNat ≤ n → 0 ≤ e → 2 ≤ m →
      0 ≤ r → r < m → 0 ≤ b →
      modPowGo m r b e = r * b ^ e.toNat % m := by
  intro n
  induction n with
  | zero =>
    intro e r b m hn he hm hr hrm hb
    have he0 : e = 0 := by omega
    rw [modPowGo]
    simp [he0, Int.emod_eq_of_lt hr hrm]
  | succ n ih =>
    intro e r b m hn he hm hr hrm hb
    by_cases hpos : e > 0
    · rw [modPowGo, if_pos hpos]
      have hm0 : (0:Int) ≤ m := by omega
      have hmne : m ≠ 0 := by omega
      have hmpos : (0:Int) < m := by omega
      have hfd : e.fdiv 2 = e / 2 := Int.fdiv_eq_ediv _ (by omega)
      have he' : 0 ≤ e.fdiv 2 := by rw [hfd]; omega
      have hnt : (e.fdiv 2).toNat = e.toNat / 2 := by rw [hfd]; omega
      have hn' : (e.fdiv 2).toNat ≤ n := by omega
      have hb2 : ((b * b).tmod m) = b * b % m :=
        Int.tmod_eq_emod (by positivity) hm0
      have hb2n : 0 ≤ (b * b).tmod m := by
        rw [hb2]; exact Int.emod_nonneg _ hmne
      have hbbm : (b * b) % m ≡ b * b [ZMOD m] := Int.mod_modEq _ _
      have hparity : (e.tmod 2 = 1) ↔ e.toNat % 2 = 1 := by
        rw [Int.tmod_eq_emod he (by omega)]
        omega
      by_cases hodd : e.tmod 2 = 1
      · rw [if_pos hodd]
        have hrb : (r * b).tmod m = r * b % m :=
          Int.tmod_eq_emod (by positivity) hm0
        have hr' : 0 ≤ (r * b).tmod m := by
          rw [hrb]; exact Int.emod_nonneg _ hmne
        have hrm' : (r * b).tmod m < m := by
          rw [hrb]; exact Int.emod_lt_of_pos _ hmpos
        rw [ih (e.fdiv 2) _ _ m hn' he' hm hr' hrm' hb2n]
        have hcong : (r * b).tmod m * ((b * b).tmod m) ^ (e.fdiv 2).toNat ≡
            r * b * (b * b) ^ (e.fdiv 2).toNat [ZMOD m] := by
          rw [hrb, hb2]
          exact (Int.mod_modEq _ _).mul (hbbm.pow _)
        rw [Int.ModEq] at hcong
        rw [hcong]
        have hexp : b * (b * b) ^ (e.toNat / 2) = b ^ e.toNat := by
          have h2 : b * b = b ^ 2 := (pow_two b).symm
          rw [h2, ← pow_mul, ← pow_succ']
          congr 1
          have := hparity.mp hodd
          omega
        rw [hnt, show r * b * (b * b) ^ (e.toNat / 2) =
          r * (b * (b * b) ^ (e.toNat / 2)) by ring, hexp]
      · rw [if_neg hodd]
        rw [ih (e.fdiv 2) _ _ m hn' he' hm hr hrm hb2n]
        have hcong : r * ((b * b).tmod m) ^ (e.fdiv 2).toNat ≡
            r * (b * b) ^ (e.fdiv 2).toNat [ZMOD m] := by
          rw [hb2]
          exact (hbbm.pow _).mul_left r
        rw [Int.ModEq] at hcong
        rw [hcong]
        have hexp : (b * b) ^ (e.toNat / 2) = b ^ e.toNat := by
          have h2 : b * b = b ^ 2 := (pow_two b).symm
          rw [h2, ← pow_mul]
          congr 1
          have : ¬ e.toNat % 2 = 1 := fun hc => hodd (hparity.mpr hc)
          omega
        rw [hnt, hexp]
    · have he0 : e = 0 := by omega
      rw [modPowGo]
      simp [he0, Int.emod_eq_of_lt hr hrm]

/-- For non-negative base and exponent and a positive modulus, `modPow`
computes `base ^ exponent mod modulus` (with the mathematical, always
non-negative remainder). -/
theorem modPow_eq_pow (b e m : Int) (hb : 0 ≤ b) (he : 0 ≤ e) (hm : 1 ≤ m) :
    modPow b e m = b ^ e.toNat % m := by
  rw [modPow]
  by_cases h1 : m = 1
  · simp [h1]
  · rw [if_neg h1]
    have hm2 : (2:Int) ≤ m := by omega
    have htm : b.tmod m = b % m := Int.tmod_eq_emod hb (by omega)
    have hbm : 0 ≤ b.tmod m := by
      rw [htm]; exact Int.emod_nonneg _ (by omega)
    rw [modPowGo_eq_bounded e.toNat e 1 (b.tmod m) m le_rfl he hm2 (by omega)
      (by omega) hbm]
    have hcong : 1 * (b.tmod m) ^ e.toNat ≡ 1 * b ^ e.toNat [ZMOD m] := by
      rw [htm]
      exact ((Int.mod_modEq _ _).pow _).mul_left 1
    rw [Int.ModEq] at hcong
    rw [hcong, one_mul]

/-- C1: for base ≥ 0, exponent ≥ 0 and modulus ≥ 1, `modPow` returns
`base ^ exponent mod modulus`; it returns 0 whenever modulus = 1, and
`modPow(4, 13, 497) = 445`. -/
theorem modPow_correct :
    (∀ b e m : Int, 0 ≤ b → 0 ≤ e → 1 ≤ m → modPow b e m = b ^ e.toNat % m) ∧
      (∀ b e : Int, modPow b e 1 = 0) ∧ modPow 4 13 497 = 445 := by
  refine ⟨modPow_eq_pow, fun b e => by rw [modPow]; simp, ?_⟩
  rw [modPow_eq_pow 4 13 497 (by norm_num) (by norm_num) (by norm_num)]
  decide

/-- Witness for C1 at a concrete input. -/
theorem modPow_correct_witness :
    modPow 2 5 323 = 2 ^ (5:Int).toNat % 323 :=
  modPow_correct.1 2 5 323 (by norm_num) (by norm_num) (by norm_num)

/-- C5 (counterexample): the claim asserts that `modPow` returns a value in
`[0, modulus)` for every integer base, negative bases included, normalized
via `((x mod m) + m) mod m`.  The code only applies JavaScript's
sign-preserving `%`, so `modPow(-3, 1, 5) = -3`, which is negative. -/
theorem modPow_range_counterexample :
    modPow (-3) 1 5 = -3 ∧ ¬ (0 ≤ modPow (-3) 1 5) := by
  have h1 : Int.tmod (-3) 5 = -3 := by decide
  have h2 : Int.tmod 1 2 = 1 := by decide
  have h3 : Int.fdiv 1 2 = 0 := by decide
  have h4 : Int.tmod (1 * -3) 5 = -3 := by decide
  have hgo : modPowGo 5 1 (-3) 1 = -3 := by
    rw [modPowGo, if_pos (by norm_num), h2, if_pos rfl, h3, h4, modPowGo]
    norm_num
  have : modPow (-3) 1 5 = -3 := by
    rw [modPow, if_neg (by norm_num), h1, hgo]
  exact ⟨this, by rw [this]; norm_num⟩

/-- C5 (amended): for base ≥ 0, exponent ≥ 0 and modulus ≥ 1, `modPow`
returns a value in the canonical range `[0, modulus)`; a negative base is
reduced only with the sign-preserving `%`, so the result can be negative. -/
theorem modPow_range (b e m : Int) (hb : 0 ≤ b) (he : 0 ≤ e) (hm : 1 ≤ m) :
    0 ≤ modPow b e m ∧ modPow b e m < m := by
  rw [modPow_eq_pow b e m hb he hm]
  exact ⟨Int.emod_nonneg _ (by omega), Int.emod_lt_of_pos _ (by omega)⟩

/-- Witness for C5 (amended) at a concrete input. -/
theorem modPow_range_witness : 0 ≤ modPow 2 5 323 ∧ modPow 2 5 323 < 323 :=
  modPow_range 2 5 323 (by norm_num) (by norm_num) (by norm_num)

/-- For a positive modulus, the canonical normalization `((x tmod m) + m) tmod m`
lands in `[0, m)` and is congruent to `x` modulo `m`. -/
theorem tmod_normalize (x m : Int) (hm : 0 < m) :
    0 ≤ (x.tmod m + m).tmod m ∧ (x.tmod m + m).tmod m < m ∧
      (x.tmod m + m).tmod m ≡ x [ZMOD m] := by
  have habs : (x.tmod m).natAbs = x.natAbs % m.natAbs := natAbs_tmod x m
  have hmod : x.natAbs % m.natAbs < m.natAbs := Nat.mod_lt _ (by omega)
  have hlow : -m < x.tmod m := by omega
  have hup : x.tmod m < m := Int.tmod_lt_of_pos x hm
  have hpos : 0 ≤ x.tmod m + m := by omega
  have he : (x.tmod m + m).tmod m = (x.tmod m + m) % m :=
    Int.tmod_eq_emod hpos (by omega)
  refine ⟨?_, ?_, ?_⟩
  · rw [he]; exact Int.emod_nonneg _ (by omega)
  · rw [he]; exact Int.emod_lt_of_pos _ hm
  · rw [he]
    have h1 : x.tmod m + m ≡ x.tmod m [ZMOD m] := by
      show (x.tmod m + m) % m = x.tmod m % m
      have : x.tmod m + m = x.tmod m + m * 1 := by ring
      rw [this, Int.add_mul_emod_self_left]
    have h2 : x.tmod m ≡ x [ZMOD m] := by
      show x.tmod m % m = x % m
      have hdef : x.tmod m = x + m * (-(x.tdiv m)) := by
        have := Int.tmod_add_tdiv x m
        linarith
      rw [hdef, Int.add_mul_emod_self_left]
    exact (Int.mod_modEq _ _).trans (h1.trans h2)

/-- C3 (amended): for phi ≥ 1, `modInverse(e, phi)` returns `none` (the
source's `null`) exactly when the `gcd` function returns a value other
than 1 on `(e, phi)`; otherwise it returns some `d` in `[0, phi)` with
`e·d ≡ 1 (mod phi)` (for phi ≥ 2 this congruence is the equation
`(e·d) mod phi = 1`). -/
theorem modInverse_correct (e phi : Int) (hphi : 1 ≤ phi) :
    (modInverse e phi = none ↔ gcd e phi ≠ 1) ∧
      ∀ d : Int, modInverse e phi = some d →
        0 ≤ d ∧ d < phi ∧ e * d ≡ 1 [ZMOD phi] := by
  have hg := extendedEuclidean_fst e phi
  by_cases h1 : (extendedEuclidean e phi).1 = 1
  · have hmi : modInverse e phi =
        some (((extendedEuclidean e phi).2.1.tmod phi + phi).tmod phi) := by
      rw [modInverse]
      simp [h1]
    constructor
    · rw [hmi]
      simp [← hg, h1]
    · intro d hd
      rw [hmi] at hd
      obtain rfl : ((extendedEuclidean e phi).2.1.tmod phi + phi).tmod phi = d :=
        Option.some.inj hd
      obtain ⟨hn0, hnlt, hncong⟩ :=
        tmod_normalize (extendedEuclidean e phi).2.1 phi (by omega)
      refine ⟨hn0, hnlt, ?_⟩
      have hbez := extendedEuclidean_bezout e phi
      rw [h1] at hbez
      have hx : e * (extendedEuclidean e phi).2.1 ≡ 1 [ZMOD phi] := by
        show e * (extendedEuclidean e phi).2.1 % phi = 1 % phi
        have : e * (extendedEuclidean e phi).2.1 =
            1 + phi * (-(extendedEuclidean e phi).2.2) := by linarith
        rw [this, Int.add_mul_emod_self_left]
      exact ((hncong.mul_left e).trans hx)
  · have hmi : modInverse e phi = none := by
      rw [modInverse]
      simp [h1]
    refine ⟨by simp [hmi, ← hg, h1], fun d hd => by simp [hmi] at hd⟩

/-- Witness for C3 (amended) at a concrete input. -/
theorem modInverse_correct_witness :
    (modInverse 5 288 = none ↔ gcd 5 288 ≠ 1) ∧
      ∀ d : Int, modInverse 5 288 = some d →
        0 ≤ d ∧ d < 288 ∧ 5 * d ≡ 1 [ZMOD 288] :=
  modInverse_correct 5 288 (by norm_num)

/-- C3 (counterexample): at `e = 1`, `phi = 1` the `gcd` is 1 and
`modInverse` returns `some 0`, but `(1·0) mod 1 = 0 ≠ 1`, so the claimed
equation `(e·d) mod phi = 1` fails for `phi = 1`. -/
theorem modInverse_claim_counterexample :
    gcd 1 1 = 1 ∧ modInverse 1 1 = some 0 ∧ (1 * 0 : Int) % 1 ≠ 1 := by
  have h0 : Int.tmod 1 1 = 0 := by decide
  have ht : Int.tdiv 1 1 = 1 := by decide
  have hgcd : gcd 1 1 = 1 := by
    rw [gcd, h0, gcd]
    norm_num
  have hee : extendedEuclidean 1 1 = (1, 0, 1) := by
    rw [extendedEuclidean, h0, extendedEuclidean]
    norm_num
  have hmi : modInverse 1 1 = some 0 := by
    rw [modInverse, hee]
    norm_num
  exact ⟨hgcd, hmi, by norm_num⟩

/-- Trial-division loop of `isPrime` from `rsa-math.js`:
`for (let i = 5; i * i <= num; i = i + 6)` testing `i` and `i + 2`. -/
def isPrimeLoop (num i : Int) : Bool :=
  if i * i ≤ num then
    if num.tmod i = 0 || num.tmod (i + 2) = 0 then false
    else isPrimeLoop num (i + 6)
  else true
termination_by (num + 1 - i).toNat
decreasing_by
  rename_i h _
  have hi : i ≤ num := by
    rcases le_or_lt i 0 with hi0 | hi0
    · nlinarith [mul_self_nonneg i]
    · nlinarith
  omega

/-- Embedding of `isPrime(num)` from `rsa-math.js`. -/
def isPrime (num : Int) : Bool :=
  if num ≤ 1 then false
  else if num ≤ 3 then true
  else if num.tmod 2 = 0 || num.tmod 3 = 0 then false
  else isPrimeLoop num 5

/-- If the trial-division loop reports a divisor, there is a proper
divisor of `num` (bounded recursion form). -/
theorem isPrimeLoop_false_sound :
    ∀ (n : Nat) (num i : Int), (num + 1 - i).toNat ≤ n → 5 ≤ i →
      isPrimeLoop num i = false → ∃ d : Int, 1 < d ∧ d < num ∧ d ∣ num := by
  intro n
  induction n with
  | zero =>
    intro num i hn hi hfalse
    rw [isPrimeLoop] at hfalse
    by_cases hle : i * i ≤ num
    · have : i ≤ num := by nlinarith
      omega
    · rw [if_neg hle] at hfalse
      exact absurd hfalse (by simp)
  | succ n ih =>
    intro num i hn hi hfalse
    rw [isPrimeLoop] at hfalse
    by_cases hle : i * i ≤ num
    · rw [if_pos hle] at hfalse
      by_cases hdvd : num.tmod i = 0 ∨ num.tmod (i + 2) = 0
      · rcases hdvd with hdi | hdi2
        · refine ⟨i, by omega, by nlinarith, Int.dvd_of_tmod_eq_zero hdi⟩
        · refine ⟨i + 2, by omega, by nlinarith, Int.dvd_of_tmod_eq_zero hdi2⟩
      · push_neg at hdvd
        rw [if_neg (by simp [hdvd.1, hdvd.2])] at hfalse
        have hmeas : (num + 1 - (i + 6)).toNat ≤ n := by
          have : i ≤ num := by nlinarith
          omega
        exact ih num (i + 6) hmeas (by omega) hfalse
    · rw [if_neg hle] at hfalse
      exact absurd hfalse (by simp)

/-- If `num` has a divisor `d ≥ i` with `d ≡ ±1 (mod 6)` and `d² ≤ num`,
the trial-division loop starting at `i ≡ 5 (mod 6)` reports it
(bounded recursion form). -/
theorem isPrimeLoop_false_complete :
    ∀ (n : Nat) (num i d : Int), (num + 1 - i).toNat ≤ n → 5 ≤ i →
      i.tmod 6 = 5 → d ∣ num → i ≤ d → d * d ≤ num →
      (d.tmod 6 = 1 ∨ d.tmod 6 = 5) → isPrimeLoop num i = false := by
  intro n
  induction n with
  | zero =>
    intro num i d hn hi hi6 hdvd hid hdsq hd6
    have h1 : i * i ≤ num := by nlinarith
    have h2 : i ≤ num := by nlinarith
    omega
  | succ n ih =>
    intro num i d hn hi hi6 hdvd hid hdsq hd6
    have h1 : i * i ≤ num := by nlinarith
    rw [isPrimeLoop, if_pos h1]
    by_cases hcheck : num.tmod i = 0 ∨ num.tmod (i + 2) = 0
    · rw [if_pos (by rcases hcheck with h | h <;> simp [h])]
    · push_neg at hcheck
      rw [if_neg (by simp [hcheck.1, hcheck.2])]
      have hdi : d ≠ i := by
        intro hc
        exact hcheck.1 (hc ▸ Int.tmod_eq_zero_of_dvd hdvd)
      have hdi2 : d ≠ i + 2 := by
        intro hc
        exact hcheck.2 (hc ▸ Int.tmod_eq_zero_of_dvd hdvd)
      have hi6' : i % 6 = 5 := by
        rw [← Int.tmod_eq_emod (by omega) (by omega)]
        exact hi6
      have hd6' : d % 6 = 1 ∨ d % 6 = 5 := by
        rcases hd6 with h | h
        · left; rw [← Int.tmod_eq_emod (by omega) (by omega)]; exact h
        · right; rw [← Int.tmod_eq_emod (by omega) (by omega)]; exact h
      have hd6ge : i + 6 ≤ d := by omega
      have hmeas : (num + 1 - (i + 6)).toNat ≤ n := by
        have : i ≤ num := by nlinarith
        omega
      have hi66 : (i + 6).tmod 6 = 5 := by
        rw [Int.tmod_eq_emod (by omega) (by omega)]
        omega
      exact ih num (i + 6) d hmeas (by omega) hi66 hdvd hd6ge hdsq hd6

/-- The trial-division test of `rsa-math.js` recognises exactly the
integers ≥ 2 without a proper divisor. -/
theorem isPrime_iff (num : Int) :
    isPrime num = true ↔ 2 ≤ num ∧ ∀ d : Int, 1 < d → d < num → ¬ d ∣ num := by
  constructor
  · intro h
    rw [isPrime] at h
    by_cases h1 : num ≤ 1
    · rw [if_pos h1] at h
      exact absurd h (by simp)
    · rw [if_neg h1] at h
      by_cases h3 : num ≤ 3
      · refine ⟨by omega, ?_⟩
        intro d hd1 hd2 hdvd
        have hd : d = 2 := by omega
        have hnum : num = 3 := by omega
        subst hd
        subst hnum
        obtain ⟨k, hk⟩ := hdvd
        omega
      · rw [if_neg h3] at h
        by_cases h23 : num.tmod 2 = 0 ∨ num.tmod 3 = 0
        · rw [if_pos (by rcases h23 with hc | hc <;> simp [hc])] at h
          exact absurd h (by simp)
        · push_neg at h23
          rw [if_neg (by simp [h23.1, h23.2])] at h
          refine ⟨by omega, ?_⟩
          intro d hd1 hd2 hdvd
          have hcast : (num.toNat : Int) = num := Int.toNat_of_nonneg (by omega)
          have hdn : d.toNat ∣ num.toNat := by
            have hc : (d.toNat : Int) ∣ (num.toNat : Int) := by
              rw [Int.toNat_of_nonneg (by omega), hcast]
              exact hdvd
            exact_mod_cast hc
          have hd1n : 1 < d.toNat := by omega
          have hd2n : d.toNat < num.toNat := by omega
          have hnp : ¬ Nat.Prime num.toNat := by
            intro hp
            rcases hp.eq_one_or_self_of_dvd _ hdn with hc | hc <;> omega
          have hq := Nat.minFac_prime (show num.toNat ≠ 1 by omega)
          have hqdvd : num.toNat.minFac ∣ num.toNat := Nat.minFac_dvd num.toNat
          have hqsq : num.toNat.minFac ^ 2 ≤ num.toNat :=
            Nat.minFac_sq_le_self (by omega) hnp
          have hqdvdInt : (num.toNat.minFac : Int) ∣ num := by
            have hc : ((num.toNat.minFac : Nat) : Int) ∣ (num.toNat : Int) :=
              Int.natCast_dvd_natCast.mpr hqdvd
            rwa [hcast] at hc
          have h2nn : ¬ ((2:Int) ∣ num) := fun hc => h23.1 (Int.tmod_eq_zero_of_dvd hc)
          have h3nn : ¬ ((3:Int) ∣ num) := fun hc => h23.2 (Int.tmod_eq_zero_of_dvd hc)
          have hq2 : num.toNat.minFac ≠ 2 := by
            intro hc
            exact h2nn (by exact_mod_cast hc ▸ hqdvdInt)
          have hq3 : num.toNat.minFac ≠ 3 := by
            intro hc
            exact h3nn (by exact_mod_cast hc ▸ hqdvdInt)
          have hq2d : ¬ 2 ∣ num.toNat.minFac := by
            intro hc
            rcases hq.eq_one_or_self_of_dvd 2 hc with hc2 | hc2 <;> omega
          have hq3d : ¬ 3 ∣ num.toNat.minFac := by
            intro hc
            rcases hq.eq_one_or_self_of_dvd 3 hc with hc2 | hc2 <;> omega
          have hq2m : num.toNat.minFac % 2 ≠ 0 := by
            intro hc
            exact hq2d (Nat.dvd_of_mod_eq_zero hc)
          have hq3m : num.toNat.minFac % 3 ≠ 0 := by
            intro hc
            exact hq3d (Nat.dvd_of_mod_eq_zero hc)
          have hqtwo : 2 ≤ num.toNat.minFac := hq.two_le
          have hq5 : 5 ≤ num.toNat.minFac := by omega
          have hq6 : num.toNat.minFac % 6 = 1 ∨ num.toNat.minFac % 6 = 5 := by
            omega
          have hq5I : (5:Int) ≤ (num.toNat.minFac : Int) := by exact_mod_cast hq5
          have hqsqI : (num.toNat.minFac : Int) * (num.toNat.minFac : Int) ≤ num := by
            have hc : ((num.toNat.minFac ^ 2 : Nat) : Int) ≤ (num.toNat : Int) := by
              exact_mod_cast hqsq
            rw [hcast] at hc
            nlinarith [hc]
          have hq6I : (num.toNat.minFac : Int).tmod 6 = 1 ∨
              (num.toNat.minFac : Int).tmod 6 = 5 := by
            rw [Int.tmod_eq_emod (by positivity) (by norm_num)]
            rcases hq6 with hc | hc
            · left
              have := Int.ofNat_emod num.toNat.minFac 6
              omega
            · right
              have := Int.ofNat_emod num.toNat.minFac 6
              omega
          have hloop := isPrimeLoop_false_complete (num + 1 - 5).toNat num 5
            (num.toNat.minFac : Int) le_rfl (by norm_num) (by decide)
            hqdvdInt hq5I hqsqI hq6I
          rw [h] at hloop
          exact absurd hloop (by simp)
  · rintro ⟨h2, hnd⟩
    rw [isPrime, if_neg (by omega)]
    by_cases h3 : num ≤ 3
    · rw [if_pos h3]
    · rw [if_neg h3]
      have h2d : ¬ num.tmod 2 = 0 := fun hc =>
        hnd 2 (by norm_num) (by omega) (Int.dvd_of_tmod_eq_zero hc)
      have h3d : ¬ num.tmod 3 = 0 := fun hc =>
        hnd 3 (by norm_num) (by omega) (Int.dvd_of_tmod_eq_zero hc)
      rw [if_neg (by simp [h2d, h3d])]
      cases hL : isPrimeLoop num 5 with
      | true => rfl
      | false =>
        obtain ⟨d, hd1, hd2, hdvd⟩ :=
          isPrimeLoop_false_sound (num + 1 - 5).toNat num 5 le_rfl (by norm_num) hL
        exact absurd hdvd (hnd d hd1 hd2)

/-- C9: `isPrime(num)` returns true iff `num ≥ 2` has no divisor `d` with
`1 < d < num`; and `isPrime(2) = true`, `isPrime(1) = false`,
`isPrime(0) = false`, `isPrime(561) = false`, `isPrime(97) = true`. -/
theorem isPrime_correct :
    (∀ num : Int, isPrime num = true ↔
        2 ≤ num ∧ ∀ d : Int, 1 < d → d < num → ¬ d ∣ num) ∧
      isPrime 2 = true ∧ isPrime 1 = false ∧ isPrime 0 = false ∧
      isPrime 561 = false ∧ isPrime 97 = true := by
  refine ⟨isPrime_iff, by decide, by decide, by decide, by decide, ?_⟩
  rw [isPrime_iff]
  refine ⟨by norm_num, ?_⟩
  intro d hd1 hd2 hdvd
  have hdn : d.toNat ∣ 97 := by
    have hc : (d.toNat : Int) ∣ (97 : Int) := by
      rw [Int.toNat_of_nonneg (by omega)]
      exact hdvd
    exact_mod_cast hc
  have hp : Nat.Prime 97 := by norm_num
  rcases hp.eq_one_or_self_of_dvd _ hdn with hc | hc <;> omega

/-- Witness for C9: the characterisation applied at the concrete input 4,
whose divisor 2 shows `isPrime 4 = false`. -/
theorem isPrime_correct_witness : ¬ isPrime (4:Int) = true := by
  intro h
  obtain ⟨-, hnd⟩ := (isPrime_correct.1 4).mp h
  exact hnd 2 (by norm_num) (by norm_num) ⟨2, by norm_num⟩

/-- Loop of `generateRandomPrime` from `rsa-math.js`
(`let p = 0; while (!isPrime(p)) { p = floor(random()*(max-min+1)) + min }`).
The successive values of the random draw are embedded as an explicit
stream `sample`, and `fuel` bounds the number of observed iterations:
`none` means the loop is still running after `fuel` samples. -/
def genPrimeLoop (sample : Nat → Int) (p : Int) (i fuel : Nat) : Option Int :=
  if isPrime p then some p
  else
    match fuel with
    | 0 => none
    | fuel + 1 => genPrimeLoop sample (sample i) (i + 1) fuel

/-- Embedding of `generateRandomPrime(min, max)` from `rsa-math.js`,
parametrised by the stream of random draws. -/
def generateRandomPrime (sample : Nat → Int) (fuel : Nat) : Option Int :=
  genPrimeLoop sample 0 0 fuel

/-- On the range `[10, 10]` every draw yields 10 (which is not prime), so
the search loop of `generateRandomPrime` never terminates: for every
iteration bound it is still running.  (Bounded loop form.) -/
theorem genPrimeLoop_ten :
    ∀ (fuel : Nat) (sample : Nat → Int) (i : Nat) (p : Int),
      (∀ j, 10 ≤ sample j ∧ sample j ≤ 10) → (p = 0 ∨ p = 10) →
      genPrimeLoop sample p i fuel = none := by
  intro fuel
  induction fuel with
  | zero =>
    intro sample i p hs hp
    rcases hp with rfl | rfl <;> rw [genPrimeLoop] <;> decide
  | succ fuel ih =>
    intro sample i p hs hp
    have hnp : isPrime p = false := by
      rcases hp with rfl | rfl <;> decide
    rw [genPrimeLoop, hnp]
    simp only [Bool.false_eq_true, if_false]
    exact ih sample (i + 1) (sample i) hs (Or.inr (by have := hs i; omega))

/-- C6: the source's `generateRandomPrime` has no iteration cap; on a
prime-free range such as `[10, 10]` (where every draw is 10) it loops
forever instead of reporting a `RangeHasNoPrime` failure: for every bound
on the number of attempts, the loop has not returned. -/
theorem generateRandomPrime_diverges (sample : Nat → Int) (fuel : Nat)
    (hs : ∀ j, 10 ≤ sample j ∧ sample j ≤ 10) :
    generateRandomPrime sample fuel = none :=
  genPrimeLoop_ten fuel sample 0 0 hs (Or.inl rfl)

/-- Witness for C6 at the constant stream of draws from `[10, 10]`. -/
theorem generateRandomPrime_diverges_witness :
    generateRandomPrime (fun _ => 10) 5 = none :=
  generateRandomPrime_diverges (fun _ => 10) 5 (fun _ => by norm_num)

/-- Binary digits of a natural number, most significant first: model of
`BigInt.prototype.toString(2)` for positive values. -/
def binDigits (n : Nat) : List Char :=
  if n = 0 then []
  else binDigits (n / 2) ++ [if n % 2 = 1 then '1' else '0']
termination_by n
decreasing_by
  rename_i h
  exact Nat.div_lt_self (Nat.pos_of_ne_zero h) (by norm_num)

/-- Model of `exponent.toString(2)` as a list of characters. -/
def toBinaryChars (n : Int) : List Char :=
  if n < 0 then '-' :: binDigits (-n).toNat
  else if n = 0 then ['0']
  else binDigits n.toNat

/-- Return type of `modPowWithSteps`: the human-readable trace and the
numeric result. -/
structure StepResult where
  steps : List String
  result : Int

/-- Per-bit loop of `modPowWithSteps` from `rsa-math.js`, processing the
binary expansion of the exponent from its last character (least
significant bit) towards the first; the base is squared only while
characters remain (`if (i > 0)`). -/
def modPowStepsGo (modulus : Int) (bits : List Char) (result b : Int)
    (idx : Nat) : List String × Int :=
  match bits with
  | [] => ([], result)
  | bit :: rest =>
    let bitLine := s!"\nBit {idx} (from right) = {bit}"
    let rp :=
      if bit = '1' then
        let nr := (result * b).tmod modulus
        (["Bit is 1: result = (result * base) % modulus",
          s!"result = ({result} * {b}) % {modulus} = {nr}"], nr)
      else
        ([s!"Bit is 0: result remains {result}"], result)
    let bp :=
      if rest.isEmpty then ([], b)
      else
        let nb := (b * b).tmod modulus
        (["Square base: base = (base * base) % modulus",
          s!"base = ({b} * {b}) % {modulus} = {nb}"], nb)
    let tail := modPowStepsGo modulus rest rp.2 bp.2 (idx + 1)
    (bitLine :: rp.1 ++ bp.1 ++ tail.1, tail.2)

/-- Embedding of `modPowWithSteps(base, exponent, modulus)` from
`rsa-math.js`. -/
def modPowWithSteps (base exponent modulus : Int) : StepResult :=
  if modulus = 1 then ⟨["Modulus is 1, result is 0."], 0⟩
  else
    let b := base.tmod modulus
    let binaryExp := toBinaryChars exponent
    let binStr : String := ⟨binaryExp⟩
    let loop := modPowStepsGo modulus binaryExp.reverse 1 b 0
    ⟨["Calculating (base ^ exponent) % modulus",
      s!"({base} ^ {exponent}) % {modulus}",
      s!"Exponent in binary: {binStr}",
      "---",
      "Initialize result = 1n"] ++ loop.1 ++
      ["---", s!"Final exponent bit processed. Result = {loop.2}"],
     loop.2⟩

/-- Numeric recurrence of the step-logging loop (the trace strings do not
influence the accumulator). -/
theorem modPowStepsGo_snd (m : Int) (bit : Char) (rest : List Char)
    (r b : Int) (idx : Nat) :
    (modPowStepsGo m (bit :: rest) r b idx).2 =
      (modPowStepsGo m rest (if bit = '1' then (r * b).tmod m else r)
        (if rest.isEmpty then b else (b * b).tmod m) (idx + 1)).2 := by
  rw [modPowStepsGo]
  by_cases h1 : bit = '1' <;> by_cases h2 : rest.isEmpty <;> simp [h1, h2]

/-- The step-logging loop over the reversed binary digits of a positive
exponent computes exactly the square-and-multiply loop of `modPow`. -/
theorem modPowStepsGo_eq_modPowGo :
    ∀ (k n : Nat), 0 < n → n ≤ k → ∀ (m r b : Int) (idx : Nat),
      (modPowStepsGo m (binDigits n).reverse r b idx).2 = modPowGo m r b (n : Int) := by
  intro k
  induction k with
  | zero =>
    intro n hn hk
    omega
  | succ k ih =>
    intro n hn hk m r b idx
    have hrev : (binDigits n).reverse =
        (if n % 2 = 1 then '1' else '0') :: (binDigits (n / 2)).reverse := by
      rw [binDigits, if_neg (by omega)]
      simp
    have htm : (n : Int).tmod 2 = 1 ↔ n % 2 = 1 := by
      rw [Int.tmod_eq_emod (by positivity) (by norm_num)]
      omega
    have hfd : (n : Int).fdiv 2 = ((n / 2 : Nat) : Int) := by
      rw [Int.fdiv_eq_ediv _ (by norm_num)]
      omega
    rw [hrev, modPowStepsGo_snd]
    have hR : (if (if n % 2 = 1 then '1' else '0') = '1' then (r * b).tmod m else r)
        = (if (n : Int).tmod 2 = 1 then (r * b).tmod m else r) := by
      by_cases hp : n % 2 = 1
      · rw [if_pos (by simp [hp]), if_pos (htm.mpr hp)]
      · rw [if_neg (by simp [hp]), if_neg (fun hc => hp (htm.mp hc))]
    rw [hR, modPowGo, if_pos (show ((n : Int) > 0) from by exact_mod_cast hn)]
    by_cases hhalf : n / 2 = 0
    · have hn1 : n = 1 := by omega
      subst hn1
      have hrev0 : (binDigits (1 / 2)).reverse = [] := by
        norm_num
        rw [binDigits]
        simp
      rw [hrev0]
      have h12 : (((1 : Nat) : Int)).tmod 2 = 1 := by decide
      have hfd1 : (((1 : Nat) : Int)).fdiv 2 = 0 := by decide
      rw [if_pos h12, hfd1, modPowStepsGo, modPowGo]
      norm_num
    · have h2pos : 0 < n / 2 := Nat.pos_of_ne_zero hhalf
      have hne : ¬ (binDigits (n / 2)).reverse.isEmpty = true := by
        rw [binDigits, if_neg hhalf]
        simp
      rw [if_neg hne, hfd]
      exact ih (n / 2) h2pos (by omega) m _ ((b * b).tmod m) (idx + 1)

/-- C2: for every integer base, exponent ≥ 0 and modulus ≥ 1, the numeric
`result` field of `modPowWithSteps` equals `modPow` on the same inputs. -/
theorem modPowWithSteps_result_eq (base exponent modulus : Int)
    (he : 0 ≤ exponent) (hm : 1 ≤ modulus) :
    (modPowWithSteps base exponent modulus).result = modPow base exponent modulus := by
  by_cases h1 : modulus = 1
  · rw [modPowWithSteps, modPow, if_pos h1, if_pos h1]
  · rw [modPowWithSteps, modPow, if_neg h1, if_neg h1]
    show (modPowStepsGo modulus (toBinaryChars exponent).reverse 1
        (base.tmod modulus) 0).2 = modPowGo modulus 1 (base.tmod modulus) exponent
    by_cases h0 : exponent = 0
    · subst h0
      rw [toBinaryChars, if_neg (by norm_num), if_pos rfl]
      rw [show (['0'] : List Char).reverse = ['0'] from rfl]
      rw [modPowStepsGo_snd, if_neg (show ¬ ('0' = '1') by decide),
        if_pos (show ([] : List Char).isEmpty = true from rfl)]
      rw [modPowStepsGo, modPowGo]
      norm_num
    · have hpos : 0 < exponent := by omega
      have hbin : toBinaryChars exponent = binDigits exponent.toNat := by
        rw [toBinaryChars, if_neg (by omega), if_neg h0]
      have hcast : ((exponent.toNat : Nat) : Int) = exponent :=
        Int.toNat_of_nonneg he
      rw [hbin, ← hcast]
      exact modPowStepsGo_eq_modPowGo exponent.toNat exponent.toNat (by omega)
        le_rfl modulus 1 (base.tmod modulus) 0

/-- Witness for C2 at a concrete input (negative base included). -/
theorem modPowWithSteps_result_eq_witness :
    (modPowWithSteps (-4) 13 497).result = modPow (-4) 13 497 :=
  modPowWithSteps_result_eq (-4) 13 497 (by norm_num) (by norm_num)

/-- Model of the platform `TextEncoder` on a single Unicode scalar value:
its UTF-8 byte sequence (1 to 4 bytes). -/
def utf8EncodeChar (c : Char) : List Nat :=
  if c.toNat < 0x80 then [c.toNat]
  else if c.toNat < 0x800 then [0xC0 + c.toNat / 0x40, 0x80 + c.toNat % 0x40]
  else if c.toNat < 0x10000 then
    [0xE0 + c.toNat / 0x1000, 0x80 + c.toNat / 0x40 % 0x40, 0x80 + c.toNat % 0x40]
  else
    [0xF0 + c.toNat / 0x40000, 0x80 + c.toNat / 0x1000 % 0x40,
      0x80 + c.toNat / 0x40 % 0x40, 0x80 + c.toNat % 0x40]

/-- Model of `TextEncoder.encode` on a sequence of Unicode scalar values. -/
def utf8Encode (s : List Char) : List Nat :=
  s.foldr (fun c acc => utf8EncodeChar c ++ acc) []

/-- Embedding of `textToBigInt(text)` from `rsa-math.js`: fold the UTF-8
bytes big-endian (`result = (result << 8n) + BigInt(byte)`). -/
def textToBigInt (text : String) : Nat :=
  (utf8Encode text.data).foldl (fun result byte => result * 256 + byte) 0

/-- Lower-case hexadecimal digit, as produced by `toString(16)`. -/
def hexDigitChar (d : Nat) : Char :=
  if d < 10 then Char.ofNat (48 + d) else Char.ofNat (87 + d)

/-- Hexadecimal digits of a positive number, most significant first:
model of `BigInt.prototype.toString(16)` for positive values. -/
def hexDigits (n : Nat) : List Char :=
  if n = 0 then []
  else hexDigits (n / 16) ++ [hexDigitChar (n % 16)]
termination_by n
decreasing_by
  rename_i h
  exact Nat.div_lt_self (Nat.pos_of_ne_zero h) (by norm_num)

/-- Model of `value.toString(16)` for a non-negative value (`"0"` for 0). -/
def hexRender (n : Nat) : List Char :=
  if n = 0 then ['0'] else hexDigits n

/-- The `'0' + hexString` left-padding of `bigIntToText`, applied when the
digit count is odd. -/
def padHex (l : List Char) : List Char :=
  if l.length % 2 ≠ 0 then '0' :: l else l

/-- Value of one hexadecimal digit, as in `parseInt(·, 16)`. -/
def hexVal (c : Char) : Nat :=
  if '0' ≤ c ∧ c ≤ '9' then c.toNat - 48
  else if 'a' ≤ c ∧ c ≤ 'f' then c.toNat - 87
  else if 'A' ≤ c ∧ c ≤ 'F' then c.toNat - 55
  else 0

/-- The byte-extraction loop of `bigIntToText`:
`parseInt(hexString.substring(i, i + 2), 16)` for `i = 0, 2, 4, …`. -/
def pairParse : List Char → List Nat
  | [] => []
  | [c] => [hexVal c]
  | c1 :: c2 :: rest => (hexVal c1 * 16 + hexVal c2) :: pairParse rest

/-- The byte sequence `bigIntToText` builds from a value: hex digits,
left-padded to whole bytes, split into pairs. -/
def bigIntBytes (n : Nat) : List Nat :=
  pairParse (padHex (hexRender n))

/-- State of the WHATWG UTF-8 decoder: pending code point, number of
continuation bytes still needed, and the admissible range for the next
continuation byte. -/
structure Utf8State where
  codePoint : Nat
  bytesNeeded : Nat
  lower : Nat
  upper : Nat

/-- Initial decoder state. -/
def utf8Init : Utf8State := ⟨0, 0, 0x80, 0xBF⟩

/-- WHATWG UTF-8 decoder, lead byte: emit an ASCII byte, start a 2-, 3- or
4-byte sequence (with the E0/ED and F0/F4 boundary adjustments), or
signal an error (`none`). -/
def utf8Lead (b : Nat) : List (Option Nat) × Utf8State :=
  if b < 0x80 then ([some b], utf8Init)
  else if 0xC2 ≤ b ∧ b ≤ 0xDF then ([], ⟨b - 0xC0, 1, 0x80, 0xBF⟩)
  else if 0xE0 ≤ b ∧ b ≤ 0xEF then
    ([], ⟨b - 0xE0, 2, if b = 0xE0 then 0xA0 else 0x80,
      if b = 0xED then 0x9F else 0xBF⟩)
  else if 0xF0 ≤ b ∧ b ≤ 0xF4 then
    ([], ⟨b - 0xF0, 3, if b = 0xF0 then 0x90 else 0x80,
      if b = 0xF4 then 0x8F else 0xBF⟩)
  else ([none], utf8Init)

/-- WHATWG UTF-8 decoder, one byte in an arbitrary state.  An out-of-range
continuation byte signals an error and reprocesses the byte as a lead
byte (the standard's "prepend" rule). -/
def utf8Step (st : Utf8State) (b : Nat) : List (Option Nat) × Utf8State :=
  if st.bytesNeeded = 0 then utf8Lead b
  else if st.lower ≤ b ∧ b ≤ st.upper then
    if st.bytesNeeded = 1 then ([some (st.codePoint * 64 + (b - 0x80))], utf8Init)
    else ([], ⟨st.codePoint * 64 + (b - 0x80), st.bytesNeeded - 1, 0x80, 0xBF⟩)
  else
    (none :: (utf8Lead b).1, (utf8Lead b).2)

/-- WHATWG UTF-8 decoder over a byte list: the sequence of decoded scalar
values, with `none` marking each decoding error.  A truncated trailing
sequence is one error. -/
def utf8DecodeGo (st : Utf8State) : List Nat → List (Option Nat)
  | [] => if st.bytesNeeded = 0 then [] else [none]
  | b :: bs => (utf8Step st b).1 ++ utf8DecodeGo (utf8Step st b).2 bs

/-- The U+FFFD replacement character. -/
def replacementChar : Char := '�'

/-- Byte-order-mark handling of `new TextDecoder()` (default
`ignoreBOM = false`): a leading U+FEFF is removed from the decoded
output. -/
def bomStrip : List Char → List Char
  | [] => []
  | c :: rest => if c = '\uFEFF' then rest else c :: rest

/-- Model of `new TextDecoder().decode` with the default options:
non-fatal, so decoding errors become U+FFFD replacement characters, and
`ignoreBOM = false`, so a leading byte-order mark is stripped. -/
def utf8Decode (bytes : List Nat) : List Char :=
  bomStrip ((utf8DecodeGo utf8Init bytes).map fun o =>
    match o with
    | some v => Char.ofNat v
    | none => replacementChar)

/-- A byte sequence is valid UTF-8 iff the decoder runs without errors. -/
def validUtf8 (bytes : List Nat) : Bool :=
  (utf8DecodeGo utf8Init bytes).all Option.isSome

/-- Embedding of `bigIntToText(bigIntValue)` from `rsa-math.js` for
non-negative values: render in hex, pad to whole bytes, parse byte pairs
and decode as UTF-8 with the platform's non-fatal decoder. -/
def bigIntToText (value : Nat) : String :=
  ⟨utf8Decode (bigIntBytes value)⟩

/-- Projection of an explicit decoder state. -/
theorem bytesNeeded_mk (cp n lo hi : Nat) :
    (Utf8State.mk cp n lo hi).bytesNeeded = n := rfl

/-- Projection of an explicit decoder state. -/
theorem codePoint_mk (cp n lo hi : Nat) :
    (Utf8State.mk cp n lo hi).codePoint = cp := rfl

/-- Projection of an explicit decoder state. -/
theorem lower_mk (cp n lo hi : Nat) :
    (Utf8State.mk cp n lo hi).lower = lo := rfl

/-- Projection of an explicit decoder state. -/
theorem upper_mk (cp n lo hi : Nat) :
    (Utf8State.mk cp n lo hi).upper = hi := rfl

/-- Unfolding of the decoder on a first byte. -/
theorem utf8DecodeGo_cons (st : Utf8State) (b : Nat) (bs : List Nat) :
    utf8DecodeGo st (b :: bs) =
      (utf8Step st b).1 ++ utf8DecodeGo (utf8Step st b).2 bs := rfl

/-- In the initial state the decoder treats the byte as a lead byte. -/
theorem utf8Step_start (b : Nat) : utf8Step utf8Init b = utf8Lead b := by
  rw [utf8Step, utf8Init]
  rw [if_pos (bytesNeeded_mk 0 0 0x80 0xBF)]

/-- Lead-byte handling of an ASCII byte. -/
theorem utf8Lead_ascii (b : Nat) (h : b < 0x80) :
    utf8Lead b = ([some b], utf8Init) := by
  rw [utf8Lead, if_pos h]

/-- Lead-byte handling of a 2-byte sequence. -/
theorem utf8Lead_two (b : Nat) (h1 : 0xC2 ≤ b) (h2 : b ≤ 0xDF) :
    utf8Lead b = ([], ⟨b - 0xC0, 1, 0x80, 0xBF⟩) := by
  rw [utf8Lead, if_neg (by omega), if_pos ⟨h1, h2⟩]

/-- Lead-byte handling of a 3-byte sequence. -/
theorem utf8Lead_three (b : Nat) (h1 : 0xE0 ≤ b) (h2 : b ≤ 0xEF) :
    utf8Lead b = ([], ⟨b - 0xE0, 2, if b = 0xE0 then 0xA0 else 0x80,
      if b = 0xED then 0x9F else 0xBF⟩) := by
  rw [utf8Lead, if_neg (by omega), if_neg (by omega), if_pos ⟨h1, h2⟩]

/-- Lead-byte handling of a 4-byte sequence. -/
theorem utf8Lead_four (b : Nat) (h1 : 0xF0 ≤ b) (h2 : b ≤ 0xF4) :
    utf8Lead b = ([], ⟨b - 0xF0, 3, if b = 0xF0 then 0x90 else 0x80,
      if b = 0xF4 then 0x8F else 0xBF⟩) := by
  rw [utf8Lead, if_neg (by omega), if_neg (by omega), if_neg (by omega),
    if_pos ⟨h1, h2⟩]

/-- Final continuation byte: emit the assembled scalar value. -/
theorem utf8Step_cont1 (cp lo hi b : Nat) (h : lo ≤ b ∧ b ≤ hi) :
    utf8Step ⟨cp, 1, lo, hi⟩ b = ([some (cp * 64 + (b - 0x80))], utf8Init) := by
  rw [utf8Step]
  simp only [bytesNeeded_mk, codePoint_mk, lower_mk, upper_mk]
  rw [if_neg (by omega), if_pos h]
  simp

/-- Middle continuation byte of a 3-byte sequence. -/
theorem utf8Step_cont2 (cp lo hi b : Nat) (h : lo ≤ b ∧ b ≤ hi) :
    utf8Step ⟨cp, 2, lo, hi⟩ b = ([], ⟨cp * 64 + (b - 0x80), 1, 0x80, 0xBF⟩) := by
  rw [utf8Step]
  simp only [bytesNeeded_mk, codePoint_mk, lower_mk, upper_mk]
  rw [if_neg (by omega), if_pos h, if_neg (by omega)]

/-- First continuation byte of a 4-byte sequence. -/
theorem utf8Step_cont3 (cp lo hi b : Nat) (h : lo ≤ b ∧ b ≤ hi) :
    utf8Step ⟨cp, 3, lo, hi⟩ b = ([], ⟨cp * 64 + (b - 0x80), 2, 0x80, 0xBF⟩) := by
  rw [utf8Step]
  simp only [bytesNeeded_mk, codePoint_mk, lower_mk, upper_mk]
  rw [if_neg (by omega), if_pos h, if_neg (by omega)]

/-- Decoding an ASCII byte. -/
theorem decode_one_byte (v : Nat) (rest : List Nat) (h1 : v < 0x80) :
    utf8DecodeGo utf8Init (v :: rest) = some v :: utf8DecodeGo utf8Init rest := by
  rw [utf8DecodeGo_cons, utf8Step_start, utf8Lead_ascii v h1]
  rfl

/-- Decoding the 2-byte UTF-8 encoding of `v`. -/
theorem decode_two_byte (v : Nat) (rest : List Nat) (h1 : 0x80 ≤ v) (h2 : v < 0x800) :
    utf8DecodeGo utf8Init ((0xC0 + v / 0x40) :: ((0x80 + v % 0x40) :: rest)) =
      some v :: utf8DecodeGo utf8Init rest := by
  rw [utf8DecodeGo_cons, utf8Step_start, utf8Lead_two _ (by omega) (by omega)]
  show utf8DecodeGo ⟨0xC0 + v / 0x40 - 0xC0, 1, 0x80, 0xBF⟩
    ((0x80 + v % 0x40) :: rest) = some v :: utf8DecodeGo utf8Init rest
  rw [utf8DecodeGo_cons, utf8Step_cont1 _ _ _ _ ⟨by omega, by omega⟩]
  rw [show (0xC0 + v / 0x40 - 0xC0) * 64 + (0x80 + v % 0x40 - 0x80) = v by omega]
  rfl

/-- Decoding the 3-byte UTF-8 encoding of `v` (no surrogate values). -/
theorem decode_three_byte (v : Nat) (rest : List Nat) (h1 : 0x800 ≤ v)
    (h2 : v < 0x10000) (h3 : ¬ (0xD800 ≤ v ∧ v < 0xE000)) :
    utf8DecodeGo utf8Init ((0xE0 + v / 0x1000) :: ((0x80 + v / 0x40 % 0x40) ::
      ((0x80 + v % 0x40) :: rest))) = some v :: utf8DecodeGo utf8Init rest := by
  rw [utf8DecodeGo_cons, utf8Step_start, utf8Lead_three _ (by omega) (by omega)]
  show utf8DecodeGo ⟨0xE0 + v / 0x1000 - 0xE0, 2,
      if 0xE0 + v / 0x1000 = 0xE0 then 0xA0 else 0x80,
      if 0xE0 + v / 0x1000 = 0xED then 0x9F else 0xBF⟩
    ((0x80 + v / 0x40 % 0x40) :: ((0x80 + v % 0x40) :: rest)) =
    some v :: utf8DecodeGo utf8Init rest
  have hcond : (if 0xE0 + v / 0x1000 = 0xE0 then 0xA0 else 0x80) ≤
      0x80 + v / 0x40 % 0x40 ∧
      0x80 + v / 0x40 % 0x40 ≤ (if 0xE0 + v / 0x1000 = 0xED then 0x9F else 0xBF) := by
    constructor <;> split_ifs <;> omega
  rw [utf8DecodeGo_cons, utf8Step_cont2 _ _ _ _ hcond]
  show utf8DecodeGo ⟨(0xE0 + v / 0x1000 - 0xE0) * 64 + (0x80 + v / 0x40 % 0x40 - 0x80),
      1, 0x80, 0xBF⟩ ((0x80 + v % 0x40) :: rest) =
    some v :: utf8DecodeGo utf8Init rest
  rw [utf8DecodeGo_cons, utf8Step_cont1 _ _ _ _ ⟨by omega, by omega⟩]
  rw [show ((0xE0 + v / 0x1000 - 0xE0) * 64 + (0x80 + v / 0x40 % 0x40 - 0x80)) * 64 +
    (0x80 + v % 0x40 - 0x80) = v by omega]
  rfl

/-- Decoding the 4-byte UTF-8 encoding of `v`. -/
theorem decode_four_byte (v : Nat) (rest : List Nat) (h1 : 0x10000 ≤ v)
    (h2 : v < 0x110000) :
    utf8DecodeGo utf8Init ((0xF0 + v / 0x40000) :: ((0x80 + v / 0x1000 % 0x40) ::
      ((0x80 + v / 0x40 % 0x40) :: ((0x80 + v % 0x40) :: rest)))) =
      some v :: utf8DecodeGo utf8Init rest := by
  rw [utf8DecodeGo_cons, utf8Step_start, utf8Lead_four _ (by omega) (by omega)]
  show utf8DecodeGo ⟨0xF0 + v / 0x40000 - 0xF0, 3,
      if 0xF0 + v / 0x40000 = 0xF0 then 0x90 else 0x80,
      if 0xF0 + v / 0x40000 = 0xF4 then 0x8F else 0xBF⟩
    ((0x80 + v / 0x1000 % 0x40) :: ((0x80 + v / 0x40 % 0x40) ::
      ((0x80 + v % 0x40) :: rest))) = some v :: utf8DecodeGo utf8Init rest
  have hcond : (if 0xF0 + v / 0x40000 = 0xF0 then 0x90 else 0x80) ≤
      0x80 + v / 0x1000 % 0x40 ∧
      0x80 + v / 0x1000 % 0x40 ≤ (if 0xF0 + v / 0x40000 = 0xF4 then 0x8F else 0xBF) := by
    constructor <;> split_ifs <;> omega
  rw [utf8DecodeGo_cons, utf8Step_cont3 _ _ _ _ hcond]
  show utf8DecodeGo ⟨(0xF0 + v / 0x40000 - 0xF0) * 64 + (0x80 + v / 0x1000 % 0x40 - 0x80),
      2, 0x80, 0xBF⟩ ((0x80 + v / 0x40 % 0x40) :: ((0x80 + v % 0x40) :: rest)) =
    some v :: utf8DecodeGo utf8Init rest
  rw [utf8DecodeGo_cons, utf8Step_cont2 _ _ _ _ ⟨by omega, by omega⟩]
  show utf8DecodeGo ⟨((0xF0 + v / 0x40000 - 0xF0) * 64 + (0x80 + v / 0x1000 % 0x40 - 0x80)) * 64 +
      (0x80 + v / 0x40 % 0x40 - 0x80), 1, 0x80, 0xBF⟩ ((0x80 + v % 0x40) :: rest) =
    some v :: utf8DecodeGo utf8Init rest
  rw [utf8DecodeGo_cons, utf8Step_cont1 _ _ _ _ ⟨by omega, by omega⟩]
  rw [show (((0xF0 + v / 0x40000 - 0xF0) * 64 + (0x80 + v / 0x1000 % 0x40 - 0x80)) * 64 +
    (0x80 + v / 0x40 % 0x40 - 0x80)) * 64 + (0x80 + v % 0x40 - 0x80) = v by omega]
  rfl

/-- Validity of a `Char`'s scalar value, in `Nat` form: below the
surrogate range, or above it and below 0x110000. -/
theorem char_valid_toNat (c : Char) :
    c.toNat < 0xD800 ∨ (0xDFFF < c.toNat ∧ c.toNat < 0x110000) := by
  rcases c.valid with h | ⟨h1, h2⟩
  · left
    simpa [UInt32.lt_def, BitVec.lt_def, Char.toNat] using h
  · right
    constructor
    · simpa [UInt32.lt_def, BitVec.lt_def, Char.toNat] using h1
    · simpa [UInt32.lt_def, BitVec.lt_def, Char.toNat] using h2

/-- The modelled decoder undoes the modelled encoder on one scalar value,
for any trailing bytes. -/
theorem utf8DecodeGo_encodeChar (c : Char) (rest : List Nat) :
    utf8DecodeGo utf8Init (utf8EncodeChar c ++ rest) =
      some c.toNat :: utf8DecodeGo utf8Init rest := by
  have hval := char_valid_toNat c
  rw [utf8EncodeChar]
  by_cases k1 : c.toNat < 0x80
  · rw [if_pos k1, List.singleton_append]
    exact decode_one_byte _ _ k1
  · rw [if_neg k1]
    by_cases k2 : c.toNat < 0x800
    · rw [if_pos k2]
      rw [show ([0xC0 + c.toNat / 0x40, 0x80 + c.toNat % 0x40] ++ rest : List Nat) =
        (0xC0 + c.toNat / 0x40) :: ((0x80 + c.toNat % 0x40) :: rest) from rfl]
      exact decode_two_byte _ _ (by omega) k2
    · rw [if_neg k2]
      by_cases k3 : c.toNat < 0x10000
      · rw [if_pos k3]
        rw [show ([0xE0 + c.toNat / 0x1000, 0x80 + c.toNat / 0x40 % 0x40,
            0x80 + c.toNat % 0x40] ++ rest : List Nat) =
          (0xE0 + c.toNat / 0x1000) :: ((0x80 + c.toNat / 0x40 % 0x40) ::
            ((0x80 + c.toNat % 0x40) :: rest)) from rfl]
        exact decode_three_byte _ _ (by omega) k3 (by omega)
      · rw [if_neg k3]
        rw [show ([0xF0 + c.toNat / 0x40000, 0x80 + c.toNat / 0x1000 % 0x40,
            0x80 + c.toNat / 0x40 % 0x40, 0x80 + c.toNat % 0x40] ++ rest : List Nat) =
          (0xF0 + c.toNat / 0x40000) :: ((0x80 + c.toNat / 0x1000 % 0x40) ::
            ((0x80 + c.toNat / 0x40 % 0x40) :: ((0x80 + c.toNat % 0x40) :: rest)))
          from rfl]
        exact decode_four_byte _ _ (by omega) (by omega)

/-- Before byte-order-mark handling, the modelled decoder undoes the
modelled encoder on any scalar sequence. -/
theorem utf8Decode_raw_encode (s : List Char) :
    (utf8DecodeGo utf8Init (utf8Encode s)).map (fun o =>
      match o with
      | some v => Char.ofNat v
      | none => replacementChar) = s := by
  induction s with
  | nil => rfl
  | cons c cs ih =>
    have henc : utf8Encode (c :: cs) = utf8EncodeChar c ++ utf8Encode cs := rfl
    rw [henc, utf8DecodeGo_encodeChar, List.map_cons, ih]
    simp

/-- The modelled decoder undoes the modelled encoder on any scalar
sequence, up to stripping a leading byte-order mark. -/
theorem utf8Decode_encode (s : List Char) :
    utf8Decode (utf8Encode s) = bomStrip s := by
  rw [utf8Decode, utf8Decode_raw_encode]

/-- Stripping the byte-order mark leaves a sequence alone when its first
character is not U+FEFF. -/
theorem bomStrip_eq_self (l : List Char) (h : l.head? ≠ some '\uFEFF') :
    bomStrip l = l := by
  cases l with
  | nil => rfl
  | cons c rest =>
    rw [bomStrip, if_neg]
    intro hc
    exact h (by rw [hc]; rfl)

/-- Stripping the byte-order mark does not lengthen a sequence. -/
theorem bomStrip_length (l : List Char) : (bomStrip l).length ≤ l.length := by
  cases l with
  | nil => exact le_rfl
  | cons c rest =>
    rw [bomStrip]
    split_ifs <;> simp

/-- Stripping the byte-order mark keeps every character other than
U+FEFF. -/
theorem mem_bomStrip (c : Char) (l : List Char) (hc : c ≠ '\uFEFF')
    (h : c ∈ l) : c ∈ bomStrip l := by
  cases l with
  | nil => exact absurd h (by simp)
  | cons d rest =>
    rw [bomStrip]
    split_ifs with hd
    · rcases List.mem_cons.mp h with hcd | hmem
      · exact absurd (hcd.trans hd) hc
      · exact hmem
    · exact h

/-- Every byte produced by the modelled encoder is a byte value. -/
theorem utf8EncodeChar_bytes_lt (c : Char) : ∀ b ∈ utf8EncodeChar c, b < 256 := by
  have hval := char_valid_toNat c
  rw [utf8EncodeChar]
  split_ifs with k1 k2 k3 <;> intro b hb <;> simp at hb <;> omega

/-- Every byte produced by the modelled encoder over a sequence is a byte
value. -/
theorem utf8Encode_bytes_lt (s : List Char) : ∀ b ∈ utf8Encode s, b < 256 := by
  induction s with
  | nil => intro b hb; simp [utf8Encode] at hb
  | cons c cs ih =>
    intro b hb
    rw [show utf8Encode (c :: cs) = utf8EncodeChar c ++ utf8Encode cs from rfl] at hb
    rcases List.mem_append.mp hb with h | h
    · exact utf8EncodeChar_bytes_lt c b h
    · exact ih b h

/-- A character other than U+0000 has a nonzero scalar value. -/
theorem toNat_ne_zero_of_ne_null (c : Char) (hc : c ≠ '\x00') : c.toNat ≠ 0 := by
  intro h
  apply hc
  have h1 := Char.ofNat_toNat c
  rw [h] at h1
  rw [← h1]

/-- The encoding of a character with nonzero scalar value starts with a
positive byte. -/
theorem utf8EncodeChar_head (c : Char) (hc : c.toNat ≠ 0) :
    ∃ b0 tl, utf8EncodeChar c = b0 :: tl ∧ 0 < b0 ∧ b0 < 256 := by
  have hval := char_valid_toNat c
  rw [utf8EncodeChar]
  split_ifs with k1 k2 k3
  · exact ⟨c.toNat, [], rfl, by omega, by omega⟩
  · exact ⟨0xC0 + c.toNat / 0x40, _, rfl, by omega, by omega⟩
  · exact ⟨0xE0 + c.toNat / 0x1000, _, rfl, by omega, by omega⟩
  · exact ⟨0xF0 + c.toNat / 0x40000, _, rfl, by omega, by omega⟩

/-- Parsing a rendered hexadecimal digit gives the digit back. -/
theorem hexVal_hexDigitChar (d : Nat) (h : d < 16) :
    hexVal (hexDigitChar d) = d := by
  interval_cases d <;> decide

/-- Big-endian base-256 digits of a positive number (empty for 0);
specification-side helper for the byte extraction of `bigIntToText`. -/
def beDigits (n : Nat) : List Nat :=
  if n = 0 then [] else beDigits (n / 256) ++ [n % 256]
termination_by n
decreasing_by
  rename_i h
  exact Nat.div_lt_self (Nat.pos_of_ne_zero h) (by norm_num)

/-- Padding distributes over appending one byte's two digits. -/
theorem padHex_append_pair (l : List Char) (a b : Char) :
    padHex (l ++ [a, b]) = padHex l ++ [a, b] := by
  rw [padHex, padHex]
  by_cases h : l.length % 2 = 0
  · rw [if_neg (by simp [List.length_append]; omega), if_neg (by omega)]
  · rw [if_pos (by simp [List.length_append]; omega), if_pos (by omega)]
    rfl

/-- A padded digit string has even length. -/
theorem padHex_even (l : List Char) : (padHex l).length % 2 = 0 := by
  rw [padHex]
  by_cases h : l.length % 2 = 0
  · rw [if_neg (by omega)]
    exact h
  · rw [if_pos (by omega)]
    simp
    omega

/-- The byte-extraction loop processes an even-length prefix pairwise. -/
theorem pairParse_append :
    ∀ (k : Nat) (l : List Char), l.length ≤ k → l.length % 2 = 0 →
      ∀ (a b : Char), pairParse (l ++ [a, b]) =
        pairParse l ++ [hexVal a * 16 + hexVal b] := by
  intro k
  induction k with
  | zero =>
    intro l hk hpar a b
    have : l = [] := List.eq_nil_of_length_eq_zero (by omega)
    subst this
    rfl
  | succ k ih =>
    intro l hk hpar a b
    match l with
    | [] => rfl
    | [c] => simp at hpar
    | c1 :: c2 :: rest =>
      have hlen : rest.length ≤ k := by
        simp at hk
        omega
      have hpar' : rest.length % 2 = 0 := by
        simp at hpar
        omega
      rw [List.cons_append, List.cons_append, pairParse, pairParse]
      rw [ih rest hlen hpar' a b]
      rfl

/-- The hex digits of a positive number below 16. -/
theorem hexDigits_small (n : Nat) (h0 : 0 < n) (h : n < 16) :
    hexDigits n = [hexDigitChar n] := by
  rw [hexDigits, if_neg (by omega), show n / 16 = 0 by omega,
    show n % 16 = n by omega, hexDigits, if_pos rfl]
  rfl

/-- Parsing the padded hex rendering of a positive value recovers its
big-endian base-256 digits. -/
theorem pairParse_padHex_hexDigits :
    ∀ (k n : Nat), 0 < n → n ≤ k →
      pairParse (padHex (hexDigits n)) = beDigits n := by
  intro k
  induction k with
  | zero =>
    intro n h0 hk
    omega
  | succ k ih =>
    intro n h0 hk
    by_cases hsmall : n < 16
    · rw [hexDigits_small n h0 hsmall]
      rw [padHex, if_pos (by simp)]
      rw [pairParse]
      rw [show hexVal '0' = 0 by decide, hexVal_hexDigitChar n (by omega)]
      rw [beDigits, if_neg (by omega), show n / 256 = 0 by omega,
        show n % 256 = n by omega, beDigits, if_pos rfl]
      simp [pairParse]
    · by_cases hmed : n < 256
      · have h1 : hexDigits n = [hexDigitChar (n / 16), hexDigitChar (n % 16)] := by
          rw [hexDigits, if_neg (by omega), hexDigits_small (n / 16) (by omega) (by omega)]
          rfl
        rw [h1, padHex, if_neg (by simp)]
        rw [pairParse]
        rw [hexVal_hexDigitChar (n / 16) (by omega), hexVal_hexDigitChar (n % 16) (by omega)]
        rw [beDigits, if_neg (by omega), show n / 256 = 0 by omega, beDigits, if_pos rfl]
        simp [pairParse]
        omega
      · have h1 : hexDigits n = hexDigits (n / 256) ++
            [hexDigitChar (n / 16 % 16), hexDigitChar (n % 16)] := by
          rw [hexDigits, if_neg (by omega)]
          rw [hexDigits, if_neg (by omega)]
          rw [Nat.div_div_eq_div_mul]
          simp
        rw [h1, padHex_append_pair]
        rw [pairParse_append (padHex (hexDigits (n / 256))).length _ le_rfl
          (padHex_even _)]
        rw [ih (n / 256) (by omega) (by omega)]
        rw [hexVal_hexDigitChar (n / 16 % 16) (by omega),
          hexVal_hexDigitChar (n % 16) (by omega)]
        have hbe : beDigits n = beDigits (n / 256) ++ [n % 256] := by
          rw [beDigits, if_neg (by omega)]
        have hx : n / 16 % 16 * 16 + n % 16 = n % 256 := by omega
        rw [hx, hbe]

/-- Folding bytes onto a positive accumulator appends their digits. -/
theorem beDigits_foldl :
    ∀ (bs : List Nat) (v : Nat), 0 < v → (∀ b ∈ bs, b < 256) →
      beDigits (bs.foldl (fun r b => r * 256 + b) v) = beDigits v ++ bs := by
  intro bs
  induction bs with
  | nil => intro v hv hb; simp
  | cons b rest ih =>
    intro v hv hb
    rw [List.foldl_cons]
    rw [ih (v * 256 + b) (by omega) (fun x hx => hb x (List.mem_cons_of_mem b hx))]
    have hstep : beDigits (v * 256 + b) = beDigits v ++ [b] := by
      have hblt : b < 256 := hb b (List.mem_cons_self b rest)
      rw [beDigits, if_neg (by omega)]
      rw [show (v * 256 + b) / 256 = v by omega, show (v * 256 + b) % 256 = b by omega]
    rw [hstep, List.append_assoc]
    rfl

/-- A fold of bytes onto a positive accumulator stays positive. -/
theorem foldl_bytes_pos :
    ∀ (bs : List Nat) (v : Nat), 0 < v → 0 < bs.foldl (fun r b => r * 256 + b) v := by
  intro bs
  induction bs with
  | nil => intro v hv; simpa
  | cons b rest ih =>
    intro v hv
    rw [List.foldl_cons]
    exact ih (v * 256 + b) (by omega)

/-- Round trip of the codec of `rsa-math.js`: for a nonempty text whose
first character is not U+0000, `bigIntToText(textToBigInt(t))` returns
`t` up to the decoder's stripping of a leading byte-order mark. -/
theorem bigIntToText_textToBigInt (t : String) (h1 : t ≠ "")
    (h2 : t.data.head? ≠ some '\x00') :
    bigIntToText (textToBigInt t) = ⟨bomStrip t.data⟩ := by
  obtain ⟨data⟩ := t
  cases data with
  | nil => exact absurd rfl h1
  | cons c cs =>
    have hcnull : c ≠ '\x00' := by
      intro hc
      exact h2 (by rw [hc]; rfl)
    obtain ⟨b0, tl, henc, hb0pos, hb0lt⟩ :=
      utf8EncodeChar_head c (toNat_ne_zero_of_ne_null c hcnull)
    have hbytes : utf8Encode (c :: cs) = b0 :: (tl ++ utf8Encode cs) := by
      rw [show utf8Encode (c :: cs) = utf8EncodeChar c ++ utf8Encode cs from rfl,
        henc]
      rfl
    have hblt : ∀ b ∈ tl ++ utf8Encode cs, b < 256 := by
      intro b hb
      have : b ∈ utf8Encode (c :: cs) := by
        rw [hbytes]
        exact List.mem_cons_of_mem b0 hb
      exact utf8Encode_bytes_lt (c :: cs) b this
    have hNval : textToBigInt ⟨c :: cs⟩ =
        (tl ++ utf8Encode cs).foldl (fun r b => r * 256 + b) b0 := by
      rw [textToBigInt]
      show (utf8Encode (c :: cs)).foldl (fun r b => r * 256 + b) 0 = _
      rw [hbytes, List.foldl_cons]
      norm_num
    have hNpos : 0 < textToBigInt ⟨c :: cs⟩ := by
      rw [hNval]
      exact foldl_bytes_pos _ b0 hb0pos
    have hdig : beDigits (textToBigInt ⟨c :: cs⟩) = utf8Encode (c :: cs) := by
      rw [hNval, beDigits_foldl _ b0 hb0pos hblt, hbytes]
      have hb0 : beDigits b0 = [b0] := by
        rw [beDigits, if_neg (by omega), show b0 / 256 = 0 by omega,
          show b0 % 256 = b0 by omega, beDigits, if_pos rfl]
        rfl
      rw [hb0]
      rfl
    have hbb : bigIntBytes (textToBigInt ⟨c :: cs⟩) = utf8Encode (c :: cs) := by
      rw [bigIntBytes, hexRender, if_neg (by omega)]
      rw [pairParse_padHex_hexDigits (textToBigInt ⟨c :: cs⟩)
        (textToBigInt ⟨c :: cs⟩) hNpos le_rfl]
      exact hdig
    rw [bigIntToText, hbb]
    rw [show utf8Encode (c :: cs) = utf8Encode (String.mk (c :: cs)).data from rfl]
    rw [utf8Decode_encode]

/-- C7 (amended): the codec round trip `bigIntToText(textToBigInt(t)) = t`
holds for every nonempty text whose first character is neither U+0000
(a leading zero byte is lost by the integer encoding) nor U+FEFF (a
leading byte-order mark is stripped by the decoder); in particular it
holds for `"HI"`. -/
theorem roundTrip_correct :
    (∀ t : String, t ≠ "" → t.data.head? ≠ some '\x00' →
        t.data.head? ≠ some '\uFEFF' → bigIntToText (textToBigInt t) = t) ∧
      bigIntToText (textToBigInt "HI") = "HI" := by
  have hgen : ∀ t : String, t ≠ "" → t.data.head? ≠ some '\x00' →
      t.data.head? ≠ some '\uFEFF' → bigIntToText (textToBigInt t) = t := by
    intro t h1 h2 h3
    rw [bigIntToText_textToBigInt t h1 h2, bomStrip_eq_self t.data h3]
  exact ⟨hgen, hgen "HI" (by decide) (by decide) (by decide)⟩

/-- Witness for C7 (amended) at a concrete input. -/
theorem roundTrip_correct_witness : bigIntToText (textToBigInt "AB") = "AB" :=
  roundTrip_correct.1 "AB" (by decide) (by decide) (by decide)

/-- C7 (counterexample): the round trip fails on the empty string: the
empty text encodes to 0, which decodes to the one-character string
`"\u0000"`, not to `""`. -/
theorem roundTrip_counterexample :
    bigIntToText (textToBigInt "") = "\x00" ∧ ("\x00" : String) ≠ "" :=
  ⟨by decide, by decide⟩

/-- Concrete byte extraction: the value 255 renders as `"ff"` and parses
back to the single byte 255. -/
theorem bigIntBytes_255 : bigIntBytes 255 = [255] := by
  have hc : hexDigitChar 15 = 'f' := by decide
  have hx : hexDigits 255 = ['f', 'f'] := by
    rw [hexDigits, if_neg (by norm_num), show (255 : Nat) / 16 = 15 by norm_num,
      show (255 : Nat) % 16 = 15 by norm_num]
    rw [hexDigits, if_neg (by norm_num), show (15 : Nat) / 16 = 0 by norm_num,
      show (15 : Nat) % 16 = 15 by norm_num]
    rw [hexDigits, if_pos rfl, hc]
    rfl
  rw [bigIntBytes, hexRender, if_neg (by norm_num), hx]
  decide

/-- C8 (counterexample): the byte rendering of 255 is the single byte
0xFF, which is not valid UTF-8, yet `bigIntToText(255)` does not fail: it
returns the string consisting of the replacement character U+FFFD. -/
theorem bigIntToText_invalid_counterexample :
    validUtf8 (bigIntBytes 255) = false ∧ bigIntToText 255 = "�" := by
  constructor
  · rw [bigIntBytes_255]
    decide
  · rw [bigIntToText, bigIntBytes_255]
    decide

/-- C8 (amended): `bigIntToText` never fails; whenever the rendered bytes
are not valid UTF-8, the returned string contains the U+FFFD replacement
character (the platform decoder's non-fatal behavior). -/
theorem bigIntToText_replacement (n : Nat)
    (h : validUtf8 (bigIntBytes n) = false) :
    replacementChar ∈ (bigIntToText n).data := by
  rw [bigIntToText]
  show replacementChar ∈ utf8Decode (bigIntBytes n)
  rw [utf8Decode]
  rw [validUtf8] at h
  obtain ⟨o, ho, hnone⟩ : ∃ o ∈ utf8DecodeGo utf8Init (bigIntBytes n), o = none := by
    by_contra hc
    push_neg at hc
    have hall : (utf8DecodeGo utf8Init (bigIntBytes n)).all Option.isSome = true := by
      rw [List.all_eq_true]
      intro o ho
      cases o with
      | none => exact absurd rfl (hc none ho)
      | some v => rfl
    rw [hall] at h
    exact absurd h (by simp)
  subst hnone
  exact mem_bomStrip _ _ (by decide) (List.mem_map_of_mem _ ho)

/-- Witness for C8 (amended) at the value 255. -/
theorem bigIntToText_replacement_witness :
    replacementChar ∈ (bigIntToText 255).data :=
  bigIntToText_replacement 255 (by rw [bigIntBytes_255]; decide)

/-- Prefixing the text with U+0000 does not change its encoded integer. -/
theorem textToBigInt_nul_prepend (t : String) :
    textToBigInt ⟨'\x00' :: t.data⟩ = textToBigInt t := by
  rw [textToBigInt, textToBigInt]
  show (utf8Encode ('\x00' :: t.data)).foldl (fun r b => r * 256 + b) 0 = _
  rw [show utf8Encode ('\x00' :: t.data) =
    utf8EncodeChar '\x00' ++ utf8Encode t.data from rfl]
  rw [show utf8EncodeChar '\x00' = [0] from by decide]
  rfl

/-- A lead byte that contributes no output leaves the decoder mid-sequence. -/
theorem utf8Lead_fst_nil (b : Nat) (h : (utf8Lead b).1 = []) :
    (utf8Lead b).2.bytesNeeded ≠ 0 := by
  rw [utf8Lead] at h ⊢
  split_ifs at h ⊢ <;> simp_all [bytesNeeded_mk, utf8Init]

/-- A byte that contributes no output leaves the decoder mid-sequence. -/
theorem utf8Step_fst_nil (st : Utf8State) (b : Nat)
    (h : (utf8Step st b).1 = []) : (utf8Step st b).2.bytesNeeded ≠ 0 := by
  rw [utf8Step] at h ⊢
  split_ifs at h ⊢ with h1 h2 h3
  · exact utf8Lead_fst_nil b h
  · show st.bytesNeeded - 1 ≠ 0
    omega

/-- The decoder's output is nonempty on a nonempty byte list (and when it
is mid-sequence at the end of input). -/
theorem utf8DecodeGo_ne_nil :
    ∀ (bs : List Nat) (st : Utf8State), st.bytesNeeded ≠ 0 ∨ bs ≠ [] →
      utf8DecodeGo st bs ≠ [] := by
  intro bs
  induction bs with
  | nil =>
    intro st h
    rcases h with h | h
    · rw [utf8DecodeGo, if_neg h]
      simp
    · exact absurd rfl h
  | cons b rest ih =>
    intro st h
    rw [utf8DecodeGo_cons]
    intro hc
    obtain ⟨hfst, hsnd⟩ := List.append_eq_nil.mp hc
    exact ih _ (Or.inl (utf8Step_fst_nil st b hfst)) hsnd

/-- Decoding the bytes of a lone byte-order mark: the value 0xEFBBBF
renders as the bytes `EF BB BF`, which the platform decoder turns into
the empty string (the leading U+FEFF is stripped). -/
theorem bigIntToText_bom : bigIntToText 15711167 = "" := by
  have he : hexDigitChar 14 = 'e' := by decide
  have hf : hexDigitChar 15 = 'f' := by decide
  have hb : hexDigitChar 11 = 'b' := by decide
  have hx : hexDigits 15711167 = ['e', 'f', 'b', 'b', 'b', 'f'] := by
    simp [hexDigits, he, hf, hb]
  have hbytes : bigIntBytes 15711167 = [239, 187, 191] := by
    rw [bigIntBytes, hexRender, if_neg (by norm_num), hx]
    decide
  rw [bigIntToText, hbytes]
  decide

/-- C10 (amended): `textToBigInt` is not injective — the empty string
encodes to 0 and a U+0000 prefix leaves the encoding unchanged — and
`bigIntToText` never recovers the empty string (the value 0 decodes to
`"\u0000"`); for every nonempty `t` not starting with U+0000, the
NUL-prefixed string `"\u0000" + t` is likewise never recovered.  The
single leading-NUL string that is recovered is `"\u0000"` itself, from
the value 0. -/
theorem textToBigInt_not_injective :
    textToBigInt "" = 0 ∧
      (∀ t : String, textToBigInt ⟨'\x00' :: t.data⟩ = textToBigInt t) ∧
      bigIntToText (textToBigInt "") ≠ "" ∧
      (∀ t : String, t ≠ "" → t.data.head? ≠ some '\x00' →
        bigIntToText (textToBigInt ⟨'\x00' :: t.data⟩) ≠ ⟨'\x00' :: t.data⟩) := by
  refine ⟨rfl, textToBigInt_nul_prepend, by decide, ?_⟩
  intro t h1 h2
  rw [textToBigInt_nul_prepend t, bigIntToText_textToBigInt t h1 h2]
  intro hc
  have hdata : bomStrip t.data = '\x00' :: t.data := congrArg String.data hc
  have hlen := congrArg List.length hdata
  have hle := bomStrip_length t.data
  rw [List.length_cons] at hlen
  omega

/-- Witness for C10 (amended) at a concrete input. -/
theorem textToBigInt_not_injective_witness :
    bigIntToText (textToBigInt ⟨'\x00' :: ("A" : String).data⟩) ≠
      ⟨'\x00' :: ("A" : String).data⟩ :=
  textToBigInt_not_injective.2.2.2 "A" (by decide) (by decide)

/-- C10 (counterexample): `bigIntToText` does recover one leading-NUL
string: `"\u0000"` encodes to 0 and 0 decodes back to `"\u0000"`, so the
claim that a leading NUL can never be recovered fails at `t = "\u0000"`. -/
theorem nul_recovered_counterexample :
    ("\x00" : String).data.head? = some '\x00' ∧
      bigIntToText (textToBigInt "\x00") = "\x00" :=
  ⟨by decide, by decide⟩

end RsaMath
